import Mathlib

/-!
Verification development for the PodReader transcript-summarizer app
(`src/app.py`).  The Python functions `choose_model`, `clean_transcript`,
`check_balance`, `delete_summary` and the `download` route are embedded
shallowly: pure text processing becomes functions over `List Char`
(regex substitutions are modelled by explicit left-to-right scanners
matching Python `re.sub` semantics), and code that can raise an
uncaught exception returns `Option`/`Except`.
-/

namespace PodReader

/-! ## Model selector (`choose_model`, src/app.py lines 27-58) -/

/-- A chat message, as in the Python `messages` list of dicts with
`role` and `content` keys. -/
structure Message where
  role : String
  content : String
deriving DecidableEq, Repr

/-- `models = ["moonshot-v1-8k", "moonshot-v1-32k", "moonshot-v1-128k"]`. -/
def models : List String := ["moonshot-v1-8k", "moonshot-v1-32k", "moonshot-v1-128k"]

/-- The tier-selection if/elif/else chain of `choose_model`
(`if token_count <= 8000: models[0] elif token_count <= 32000: models[1]
else: models[2]`).  Token counts are modelled as rationals so that the
float product `word_count * 1.3` of the fallback path is represented
exactly; at the integer word counts that can occur, double-precision
evaluation and exact evaluation agree on both threshold comparisons
(the products nearest the thresholds, 6153*1.3 and 6154*1.3, are about
0.1 away from 8000, far beyond double rounding error). -/
def selectModel (token_count : ℚ) : String :=
  if token_count ≤ 8000 then models.getD 0 ""
  else if token_count ≤ 32000 then models.getD 1 ""
  else models.getD 2 ""

/-- Whitespace for Python `str.split()` / `str.strip()` (ASCII range). -/
def isPySpace (c : Char) : Bool :=
  c = ' ' || c = '\t' || c = '\n' || c = '\r' || c = '\x0b' || c = '\x0c'

/-- Python `str.split()` with no argument: maximal runs of
non-whitespace characters; empty strings never appear in the result. -/
def pyWords (l : List Char) : List (List Char) :=
  match h : l.dropWhile isPySpace with
  | [] => []
  | c :: rest =>
      (c :: rest.takeWhile (fun x => !isPySpace x)) ::
        pyWords (rest.dropWhile (fun x => !isPySpace x))
termination_by l.length
decreasing_by
  have h1 : (l.dropWhile isPySpace).length ≤ l.length :=
    (List.dropWhile_sublist _).length_le
  have h2 : (rest.dropWhile (fun x => !isPySpace x)).length ≤ rest.length :=
    (List.dropWhile_sublist _).length_le
  simp [h] at h1
  omega

/-- `"".join([message["content"] for message in messages])`. -/
def concatContents (messages : List Message) : List Char :=
  (messages.map (fun m => m.content.data)).flatten

/-- `len("".join([message["content"] for message in messages]).split())`. -/
def wordCount (messages : List Message) : ℕ :=
  (pyWords (concatContents messages)).length

/-- The local fallback estimate `word_count * 1.3` of `choose_model`. -/
def fallbackEstimate (messages : List Message) : ℚ :=
  (wordCount messages : ℚ) * (13 / 10)

/-- Outcome of the `requests.post` call to the token-estimation
endpoint: either an HTTP response (status code plus the optional
`data.total_tokens` field of the JSON body), or an exception raised by
`requests.post` itself (network error).  There is no try/except around
the call in `choose_model`. -/
inductive EstimateOutcome where
  | response (status : Nat) (total_tokens : Option Nat)
  | netError
deriving DecidableEq, Repr

/-- `choose_model` (src/app.py lines 27-58).  A raised network error
propagates to the caller (`Except.error ()`); a non-200 status takes
the `word_count * 1.3` fallback; a 200 status uses
`response.json().get('data', {}).get('total_tokens', 0)`. -/
def choose_model (messages : List Message) (outcome : EstimateOutcome) :
    Except Unit String :=
  match outcome with
  | .netError => .error ()
  | .response status tt =>
      let token_count : ℚ :=
        if status = 200 then ((tt.getD 0 : ℕ) : ℚ)
        else fallbackEstimate messages
      .ok (selectModel token_count)

/-! ## Balance endpoint (`check_balance`, src/app.py lines 125-148) -/

/-- Outcome of the `requests.get` call to the balance endpoint: an HTTP
response with status and the optional JSON fields, or a raised network
error (there is no try/except around the call). -/
inductive BalanceOutcome where
  | response (status : Nat) (available voucher cash : Option ℚ)
  | netError
deriving DecidableEq, Repr

/-- The dict returned by `check_balance`. -/
structure BalanceInfo where
  available_balance : ℚ
  voucher_balance : ℚ
  cash_balance : ℚ
deriving DecidableEq, Repr

/-- `check_balance` (src/app.py lines 125-148): on a 200 response the
three fields are read with default 0; on any other status all three
are set to 0; a raised network error propagates. -/
def check_balance (outcome : BalanceOutcome) : Except Unit BalanceInfo :=
  match outcome with
  | .netError => .error ()
  | .response status a v c =>
      if status = 200 then .ok ⟨a.getD 0, v.getD 0, c.getD 0⟩
      else .ok ⟨0, 0, 0⟩

/-! ## Summary history (`delete_summary`, src/app.py lines 246-257) -/

/-- One entry of `summary_history.json` (`summary_data` in
`save_summary`). -/
structure SummaryRecord where
  youtube_url : String
  video_title : String
  reading_time : String
  summary : String
  timestamp : String
deriving DecidableEq, Repr

/-- The list transformation performed by the `delete_summary` route:
`history = [item for item in history if item['timestamp'] != timestamp]`. -/
def delete_summary (timestamp : String) (history : List SummaryRecord) :
    List SummaryRecord :=
  history.filter (fun item => item.timestamp != timestamp)

/-! ## Download route (`download`, src/app.py lines 260-288) -/

/-- Result of the `download` route: a file attachment, an HTTP error
response, or an unhandled Python exception escaping the handler. -/
inductive DownloadResult where
  | file (content : String) (filename : String)
  | httpError (msg : String) (code : Nat)
  | pyError (kind : String)
deriving DecidableEq, Repr

/-- The `download` route (src/app.py lines 260-288).  `contentArg` and
`timestampArg` model `request.args.get(...)` (None when absent);
`historyFile` is `some history` when `summary_history.json` exists.
When `file_type = 'history_summary'` and the file does not exist,
`content`/`filename` are never assigned and `content.encode` raises
`NameError`; when `content` is None, `None.encode` raises
`AttributeError`. -/
def download (file_type : String) (contentArg timestampArg : Option String)
    (historyFile : Option (List SummaryRecord)) : DownloadResult :=
  if file_type = "summary" then
    match contentArg with
    | some content => .file content "summary.md"
    | none => .pyError "AttributeError"
  else if file_type = "transcript" then
    match contentArg with
    | some content => .file content "transcript.md"
    | none => .pyError "AttributeError"
  else if file_type = "history_summary" then
    match historyFile with
    | some history =>
        match history.find? (fun item => some item.timestamp == timestampArg) with
        | some summary_data =>
            .file summary_data.summary
              ("summary_" ++ timestampArg.getD "" ++ ".md")
        | none => .httpError "Summary not found" 404
    | none => .pyError "NameError"
  else .httpError "Invalid file type" 400

/-! ## Transcript cleaning (`clean_transcript`, src/app.py lines 90-123)

Each `re.sub(pattern, '', s)` is modelled by an explicit left-to-right
scanner: at each position the scanner tries the pattern; on a match it
skips the matched text and resumes after it (Python substitutions are
non-overlapping and do not rescan replaced text), otherwise it emits
one character and advances. -/

/-- `re.sub(r'^WEBVTT\n\n', '', transcript)`: with no MULTILINE flag
the anchor matches only at the start of the string, so at most the
leading occurrence is removed. -/
def stripHeader (t : List Char) : List Char :=
  if ("WEBVTT\n\n".data).isPrefixOf t then t.drop 8 else t

/-- Match a list of character predicates against the front of the
input, returning the remainder on success. -/
def matchShape : List (Char → Bool) → List Char → Option (List Char)
  | [], l => some l
  | _ :: _, [] => none
  | p :: ps, c :: cs => if p c then matchShape ps cs else none

/-- The fixed 29-character head of the timestamp-range pattern
`\d{2}:\d{2}:\d{2}\.\d{3} --> \d{2}:\d{2}:\d{2}\.\d{3}`. -/
def tsShape : List (Char → Bool) :=
  let d : Char → Bool := fun c => c.isDigit
  let ch : Char → Char → Bool := fun x c => c = x
  [d, d, ch ':', d, d, ch ':', d, d, ch '.', d, d, d,
   ch ' ', ch '-', ch '-', ch '>', ch ' ',
   d, d, ch ':', d, d, ch ':', d, d, ch '.', d, d, d]

/-- Skip up to and including the first newline; `none` if there is no
newline (then the trailing `.*\n` of the pattern cannot match). -/
def findNl : List Char → Option (List Char)
  | [] => none
  | c :: rest => if c = '\n' then some rest else findNl rest

/-- Try the full timestamp-range pattern
`\d{2}:...\.\d{3} --> \d{2}:...\.\d{3}.*\n` at the current position:
the 29-character head, then (since `.` does not match a newline and
`.*` is greedy) everything up to and including the next newline.
Returns the remainder after the match. -/
def matchTs (l : List Char) : Option (List Char) :=
  (matchShape tsShape l).bind findNl

theorem findNl_length : ∀ {l r : List Char}, findNl l = some r → r.length < l.length := by
  intro l
  induction l with
  | nil => intro r h; simp [findNl] at h
  | cons c rest ih =>
      intro r h
      by_cases hc : c = '\n'
      · simp [findNl, hc] at h
        subst h; simp
      · simp [findNl, hc] at h
        exact Nat.lt_trans (ih h) (by simp)

theorem findNl_suffix : ∀ {l r : List Char}, findNl l = some r → r <:+ l := by
  intro l
  induction l with
  | nil => intro r h; simp [findNl] at h
  | cons c rest ih =>
      intro r h
      by_cases hc : c = '\n'
      · simp [findNl, hc] at h
        subst h; exact ⟨[c], rfl⟩
      · simp [findNl, hc] at h
        exact (ih h).trans (List.suffix_cons c rest)

theorem matchShape_length : ∀ {ps : List (Char → Bool)} {l r : List Char},
    matchShape ps l = some r → r.length ≤ l.length := by
  intro ps
  induction ps with
  | nil => intro l r h; simp [matchShape] at h; simp [h]
  | cons p ps ih =>
      intro l r h
      cases l with
      | nil => simp [matchShape] at h
      | cons c cs =>
          by_cases hc : p c
          · simp [matchShape, hc] at h
            exact Nat.le_trans (ih h) (by simp)
          · simp [matchShape, hc] at h

theorem matchShape_suffix : ∀ {ps : List (Char → Bool)} {l r : List Char},
    matchShape ps l = some r → r <:+ l := by
  intro ps
  induction ps with
  | nil => intro l r h; simp [matchShape] at h; simp [h]
  | cons p ps ih =>
      intro l r h
      cases l with
      | nil => simp [matchShape] at h
      | cons c cs =>
          by_cases hc : p c
          · simp [matchShape, hc] at h
            exact (ih h).trans (List.suffix_cons c cs)
          · simp [matchShape, hc] at h

theorem matchTs_length {l r : List Char} (h : matchTs l = some r) :
    r.length < l.length := by
  unfold matchTs at h
  cases hm : matchShape tsShape l with
  | none => rw [hm] at h; simp at h
  | some m =>
      rw [hm] at h; simp at h
      exact Nat.lt_of_lt_of_le (findNl_length h) (matchShape_length hm)

theorem matchTs_suffix {l r : List Char} (h : matchTs l = some r) : r <:+ l := by
  unfold matchTs at h
  cases hm : matchShape tsShape l with
  | none => rw [hm] at h; simp at h
  | some m =>
      rw [hm] at h; simp at h
      exact (findNl_suffix h).trans (matchShape_suffix hm)

/-- Scanner for the timestamp-range substitution.  The first argument
counts characters of an already-recognised match that remain to be
skipped; at `skip = 0` the scanner tries the pattern at the current
position, on success skipping the matched text (its length recovered
from the remainder `r`), otherwise emitting one character.  Structured
this way the recursion is structural in the text, so it evaluates by
`rfl`/`decide`. -/
def removeTimestampsGo : Nat → List Char → List Char
  | _, [] => []
  | skip + 1, _ :: rest => removeTimestampsGo skip rest
  | 0, c :: rest =>
      match matchTs (c :: rest) with
      | some r => removeTimestampsGo (rest.length - r.length) rest
      | none => c :: removeTimestampsGo 0 rest

/-- `re.sub(r'\d{2}:\d{2}:\d{2}\.\d{3} --> \d{2}:\d{2}:\d{2}\.\d{3}.*\n', '', s)`. -/
def removeTimestamps (l : List Char) : List Char := removeTimestampsGo 0 l

/-- Split the input at the first `'>'`: `some (before, after)` with
`input = before ++ '>' :: after` and no `'>'` in `before`. -/
def findGt : List Char → Option (List Char × List Char)
  | [] => none
  | c :: rest =>
      if c = '>' then some ([], rest)
      else (findGt rest).map (fun p => (c :: p.1, p.2))

theorem findGt_some : ∀ {l : List Char} {b a : List Char},
    findGt l = some (b, a) → l = b ++ '>' :: a ∧ '>' ∉ b := by
  intro l
  induction l with
  | nil => intro b a h; simp [findGt] at h
  | cons c rest ih =>
      intro b a h
      unfold findGt at h
      by_cases hc : c = '>'
      · rw [if_pos hc] at h
        injection h with h2
        injection h2 with hb ha
        subst hb; subst ha; subst hc
        simp
      · rw [if_neg hc] at h
        cases hf : findGt rest with
        | none => rw [hf] at h; simp at h
        | some p =>
            rw [hf] at h
            simp only [Option.map_some'] at h
            injection h with h2
            injection h2 with hb ha
            obtain ⟨heq, hmem⟩ := ih (b := p.1) (a := p.2) (by rw [hf])
            subst hb; subst ha
            constructor
            · rw [heq]; simp
            · simp [hmem]
              intro hcontra
              exact hc hcontra.symm

theorem findGt_none : ∀ {l : List Char}, findGt l = none → '>' ∉ l := by
  intro l
  induction l with
  | nil => intro _ h; simp at h
  | cons c rest ih =>
      intro h
      by_cases hc : c = '>'
      · simp [findGt, hc] at h
      · simp [findGt, hc] at h
        simp [ih h]
        intro hcontra
        exact hc hcontra.symm

theorem findGt_some_length {l : List Char} {b a : List Char}
    (h : findGt l = some (b, a)) : a.length < l.length := by
  obtain ⟨heq, -⟩ := findGt_some h
  subst heq
  simp
  omega

/-- `re.sub(r'<[^>]+>', '', s)`: at a `'<'`, the greedy `[^>]+` runs to
just before the first following `'>'` (newlines included, since `[^>]`
matches them); the match needs at least one character between the
brackets, so `<>` does not match and the scanner advances by one. -/
def removeTagsGo : Nat → List Char → List Char
  | _, [] => []
  | skip + 1, _ :: rest => removeTagsGo skip rest
  | 0, c :: rest =>
      if c = '<' then
        match findGt rest with
        | some (b, a) =>
            if b = [] then c :: removeTagsGo 0 rest
            else removeTagsGo (b.length + 1) rest
        | none => c :: removeTagsGo 0 rest
      else c :: removeTagsGo 0 rest

def removeTags (l : List Char) : List Char := removeTagsGo 0 l

/-- The literal pattern of
`re.sub(r'align:start position:0%\n', '', s)` (no metacharacters). -/
def alignPat : List Char := "align:start position:0%\n".data

/-- Scanner for `re.sub(r'align:start position:0%\n', '', s)`: skip a
recognised occurrence of the literal pattern, else emit one character. -/
def removeAlignGo : Nat → List Char → List Char
  | _, [] => []
  | skip + 1, _ :: rest => removeAlignGo skip rest
  | 0, c :: rest =>
      if alignPat.isPrefixOf (c :: rest) then
        removeAlignGo (alignPat.length - 1) rest
      else c :: removeAlignGo 0 rest

/-- `re.sub(r'align:start position:0%\n', '', s)`. -/
def removeAlign (l : List Char) : List Char := removeAlignGo 0 l

/-- `re.sub(r'\n{t,}', '\n' * r, s)` for a maximal-run threshold `t`
and replacement length `r`: a maximal run of `k ≥ t` newlines is
replaced by `r` newlines, shorter runs pass through.  Used with
`t = 3, r = 2` for `\n{3,}` → `\n\n` and `t = 2, r = 1` for
`\n{2,}` → `\n`. -/
def collapseNlGo (t r : Nat) : Nat → List Char → List Char
  | k, [] => if t ≤ k then List.replicate r '\n' else List.replicate k '\n'
  | k, c :: rest =>
      if c = '\n' then collapseNlGo t r (k + 1) rest
      else
        (if t ≤ k then List.replicate r '\n' else List.replicate k '\n') ++
          c :: collapseNlGo t r 0 rest

def collapseNl (t r : Nat) (l : List Char) : List Char := collapseNlGo t r 0 l

/-- Remove trailing characters satisfying `isPySpace` (the right half
of Python `str.strip()`). -/
def stripEnd : List Char → List Char
  | [] => []
  | c :: rest =>
      if stripEnd rest = [] ∧ isPySpace c then [] else c :: stripEnd rest

/-- Python `str.strip()` with no argument. -/
def pyStrip (l : List Char) : List Char :=
  stripEnd (l.dropWhile isPySpace)

/-- Python `str.split('\n')`: always nonempty, keeps empty pieces. -/
def splitNl : List Char → List (List Char)
  | [] => [[]]
  | c :: rest =>
      if c = '\n' then [] :: splitNl rest
      else
        match splitNl rest with
        | [] => [[c]]
        | l :: ls => (c :: l) :: ls

/-- Helper for `'\n'.join`: prepend a newline before every element. -/
def auxJoin : List (List Char) → List Char
  | [] => []
  | x :: xs => '\n' :: (x ++ auxJoin xs)

/-- Python `'\n'.join(lines)`. -/
def joinNl : List (List Char) → List Char
  | [] => []
  | x :: xs => x ++ auxJoin xs

/-- The de-duplication while-loop of `clean_transcript`
(src/app.py lines 109-116):

    unique_lines = []
    i = 0
    while i < len(lines)-1:
        unique_lines.append(lines[i])
        for j in range(1,3):
            if not lines[i+j].startswith(lines[i]):
                break
        i += j

expressed structurally on the suffix `lines[i:]` of the line list.
The loop guard `i < len(lines)-1` is "at least two lines remain".  The
inner loop first tests `lines[i+1].startswith(lines[i])`; if false it
breaks with `j = 1`.  Otherwise it evaluates `lines[i+2]` — an
IndexError (modelled as `none`) when only two lines remain — and ends
with `j = 2` whether or not that second test breaks, so the value of
the second test is never used. -/
def dedupGo : List (List Char) → Option (List (List Char))
  | [] => some []
  | [_] => some []
  | x :: y :: rest =>
      if x.isPrefixOf y then
        match rest with
        | [] => none
        | _ :: _ => (dedupGo rest).map (fun ul => x :: ul)
      else (dedupGo (y :: rest)).map (fun ul => x :: ul)

/-- The line list fed to the de-duplication loop: the five regex/strip
passes followed by `split('\n')` (src/app.py lines 93-107). -/
def preLines (t : List Char) : List (List Char) :=
  splitNl (pyStrip (collapseNl 3 2 (removeAlign (removeTags (removeTimestamps (stripHeader t))))))

/-- `clean_transcript` (src/app.py lines 90-123).  `none` models the
uncaught IndexError from the de-duplication loop. -/
def clean_transcript (t : List Char) : Option (List Char) :=
  (dedupGo (preLines t)).map (fun ul => collapseNl 2 1 (joinNl ul))

/-! ## Noise predicates used to state the cleaning claims -/

/-- The input/output contains an inline bracketed markup tag: a `'<'`
followed, not immediately, by a later `'>'` with no `'>'` in between —
exactly an occurrence of the regex `<[^>]+>`. -/
def hasTag : List Char → Bool
  | [] => false
  | c :: rest =>
      (decide (c = '<') && decide (rest.head? ≠ some '>') && decide ('>' ∈ rest)) ||
        hasTag rest

/-- The line contains the 29-character timestamp-range pattern
`\d{2}:\d{2}:\d{2}\.\d{3} --> \d{2}:\d{2}:\d{2}\.\d{3}`. -/
def hasTs29 : List Char → Bool
  | [] => false
  | c :: rest => (matchShape tsShape (c :: rest)).isSome || hasTs29 rest

/-- The text starts with the format header `WEBVTT\n\n` (the form the
header-stripping regex recognises). -/
def containsHeaderB (t : List Char) : Bool := ("WEBVTT\n\n".data).isPrefixOf t

/-- Some line of the text matches the timestamp-range pattern. -/
def hasTsLineB (t : List Char) : Bool := (splitNl t).any hasTs29

/-- Some line of the text is exactly the header marker `WEBVTT`. -/
def hasWebvttLineB (t : List Char) : Bool := (splitNl t).contains "WEBVTT".data

/-! ## Shared helper lemmas -/

/-- Every line kept by the de-duplication loop comes from an index
strictly below the last one: the result is a sublist of
`lines.dropLast`. -/
theorem dedupGo_sublist : ∀ (lines ul : List (List Char)),
    dedupGo lines = some ul → ul.Sublist lines.dropLast
  | [], ul, h => by
      simp only [dedupGo, Option.some.injEq] at h
      subst h; simp
  | [x], ul, h => by
      simp only [dedupGo, Option.some.injEq] at h
      subst h; simp
  | x :: y :: rest, ul, h => by
      unfold dedupGo at h
      by_cases hp : x.isPrefixOf y
      · rw [if_pos hp] at h
        cases rest with
        | nil => simp at h
        | cons z rest' =>
            cases hd : dedupGo (z :: rest') with
            | none => rw [hd] at h; simp at h
            | some ul' =>
                rw [hd] at h
                simp only [Option.map_some', Option.some.injEq] at h
                subst h
                have ih := dedupGo_sublist (z :: rest') ul' hd
                simp only [List.dropLast_cons₂]
                exact (ih.cons _).cons₂ _
      · rw [if_neg hp] at h
        cases hd : dedupGo (y :: rest) with
        | none => rw [hd] at h; simp at h
        | some ul' =>
            rw [hd] at h
            simp only [Option.map_some', Option.some.injEq] at h
            subst h
            have ih := dedupGo_sublist (y :: rest) ul' hd
            simp only [List.dropLast_cons₂]
            exact ih.cons₂ _

/-! ## Claim theorems: model selector, balance, history, download -/

/-- Claim C2 (counterexample): a network error raised by
`requests.post` inside `choose_model` is not caught — it propagates to
the caller instead of triggering the word-count fallback, so the claim
that estimation errors are never raised is false. -/
theorem choose_model_network_error_raises :
    choose_model [⟨"user", "hi"⟩] EstimateOutcome.netError = .error () := rfl

/-- Claim C2 (amended): when the token-estimation request completes
with a non-200 status, `choose_model` falls back to the local estimate
`word_count * 1.3` and still returns one of the three tiers; only a
network error raised by the request itself escapes. -/
theorem choose_model_non200_falls_back (messages : List Message) (status : Nat)
    (tt : Option Nat) (h : status ≠ 200) :
    choose_model messages (.response status tt) =
      .ok (selectModel (fallbackEstimate messages)) ∧
    selectModel (fallbackEstimate messages) ∈ models := by
  constructor
  · simp [choose_model, h]
  · unfold selectModel
    split_ifs <;> simp [models]

/-- Witness for `choose_model_non200_falls_back` at a concrete input. -/
theorem choose_model_non200_falls_back_witness :
    choose_model [⟨"user", "hello world"⟩] (.response 500 none) =
      .ok (selectModel (fallbackEstimate [⟨"user", "hello world"⟩])) ∧
    selectModel (fallbackEstimate [⟨"user", "hello world"⟩]) ∈ models :=
  choose_model_non200_falls_back _ _ _ (by decide)

/-- Claim C3: for every token count, the tier chain selects the small
model iff the count is at most 8000, the medium model for counts in
(8000, 32000], and the large model above 32000; in particular a remote
count of 8000 selects the small tier, 8001 the medium, 32001 the
large. -/
theorem choose_model_tier_thresholds (messages : List Message) (c : ℚ) :
    (c ≤ 8000 → selectModel c = "moonshot-v1-8k") ∧
    (8000 < c → c ≤ 32000 → selectModel c = "moonshot-v1-32k") ∧
    (32000 < c → selectModel c = "moonshot-v1-128k") ∧
    choose_model messages (.response 200 (some 8000)) = .ok "moonshot-v1-8k" ∧
    choose_model messages (.response 200 (some 8001)) = .ok "moonshot-v1-32k" ∧
    choose_model messages (.response 200 (some 32001)) = .ok "moonshot-v1-128k" := by
  refine ⟨?_, ?_, ?_, ?_, ?_, ?_⟩
  · intro h1; simp [selectModel, h1, models]
  · intro h1 h2; simp [selectModel, models, not_le.mpr h1, h2]
  · intro h1
    have h2 : ¬ c ≤ 8000 := not_le.mpr (lt_trans (by norm_num) h1)
    simp [selectModel, models, not_le.mpr h1, h2]
  · simp [choose_model, selectModel, models]
  · norm_num [choose_model, selectModel, models]
  · norm_num [choose_model, selectModel, models]

/-- Witness for `choose_model_tier_thresholds`, discharging the
threshold hypotheses at the boundary counts 8000, 8001 and 32001. -/
theorem choose_model_tier_thresholds_witness :
    selectModel 8000 = "moonshot-v1-8k" ∧
    selectModel 8001 = "moonshot-v1-32k" ∧
    selectModel 32001 = "moonshot-v1-128k" :=
  ⟨(choose_model_tier_thresholds [] 8000).1 (by norm_num),
   (choose_model_tier_thresholds [] 8001).2.1 (by norm_num) (by norm_num),
   (choose_model_tier_thresholds [] 32001).2.2.1 (by norm_num)⟩

/-- Claim C8 (counterexample): a network error raised by `requests.get`
inside `check_balance` is not caught — the request failure propagates
instead of being defaulted to zero balances. -/
theorem check_balance_network_error_raises :
    check_balance BalanceOutcome.netError = .error () := rfl

/-- Claim C8 (amended): when the balance request completes with a
non-200 status, `check_balance` returns all three balances defaulted
to zero; only a network error raised by the request itself escapes. -/
theorem check_balance_non200_zero (status : Nat) (a v c : Option ℚ)
    (h : status ≠ 200) :
    check_balance (.response status a v c) = .ok ⟨0, 0, 0⟩ := by
  simp [check_balance, h]

/-- Witness for `check_balance_non200_zero` at a concrete input. -/
theorem check_balance_non200_zero_witness :
    check_balance (.response 500 none none none) = .ok ⟨0, 0, 0⟩ :=
  check_balance_non200_zero 500 none none none (by decide)

/-- Claim C7: deleting by a timestamp that occurs exactly once removes
exactly that entry and keeps every other entry, in order, with all
fields intact. -/
theorem delete_summary_removes_exactly (timestamp : String)
    (a b : List SummaryRecord) (x : SummaryRecord)
    (hx : x.timestamp = timestamp)
    (ha : ∀ y ∈ a, y.timestamp ≠ timestamp)
    (hb : ∀ y ∈ b, y.timestamp ≠ timestamp) :
    delete_summary timestamp (a ++ x :: b) = a ++ b := by
  unfold delete_summary
  have hfa : a.filter (fun item => item.timestamp != timestamp) = a :=
    List.filter_eq_self.mpr (by intro y hy; simpa using ha y hy)
  have hfb : b.filter (fun item => item.timestamp != timestamp) = b :=
    List.filter_eq_self.mpr (by intro y hy; simpa using hb y hy)
  have hxf : (x.timestamp != timestamp) = false := by simp [hx]
  rw [List.filter_append, List.filter_cons, hxf, hfa, hfb]
  simp

def rec1 : SummaryRecord := ⟨"u1", "v1", "5", "summary one", "t1"⟩

def rec2 : SummaryRecord := ⟨"u2", "v2", "3", "summary two", "t2"⟩

def rec3 : SummaryRecord := ⟨"u3", "v3", "7", "summary three", "t3"⟩

/-- Witness for `delete_summary_removes_exactly` on a concrete
three-entry history. -/
theorem delete_summary_removes_exactly_witness :
    delete_summary "t2" ([rec1] ++ rec2 :: [rec3]) = [rec1] ++ [rec3] :=
  delete_summary_removes_exactly "t2" [rec1] [rec3] rec2 rfl
    (by decide) (by decide)

/-- Claim C10: in the download route, when `file_type` is
`history_summary` and the history file does not exist, neither
`content` nor `filename` is ever assigned, so the handler raises an
unhandled NameError instead of returning an HTTP response. -/
theorem download_history_missing_name_error
    (contentArg timestampArg : Option String) :
    download "history_summary" contentArg timestampArg none =
      .pyError "NameError" := rfl

/-! ## Claim theorems: transcript cleaning (concrete evaluations) -/

/-- Claim C1: the claim says `clean_transcript` never crashes, but on
the two-line transcript `a` / `ab` (second line extends the first) the
look-ahead reads `lines[i+2]` with `i+2 = len(lines)`, an uncaught
IndexError — modelled as `none`. -/
theorem clean_transcript_index_error :
    clean_transcript "a\nab".data = none := rfl

/-- Claim C4: the rolling-caption transcript `A`/`Ab`/`Abc` collapses
to the single kept line `A`. -/
theorem clean_transcript_rolling_captions :
    dedupGo (preLines "A\nAb\nAbc".data) = some ["A".data] ∧
    clean_transcript "A\nAb\nAbc".data = some "A".data := ⟨rfl, rfl⟩

/-- Claim C5 (counterexample): cleaning is not idempotent — on
`a\nb\nc` the first pass returns `a\nb` and the second pass `a`,
because every pass drops the final line. -/
theorem clean_transcript_not_idempotent :
    (clean_transcript "a\nb\nc".data).bind clean_transcript ≠
      clean_transcript "a\nb\nc".data := by decide

def vttDupHeader : List Char :=
  "WEBVTT\n\nWEBVTT\n\n00:00:00.000 --> 00:00:01.000\n<c>hi</c>\nbye\nzz".data

def vttSplice : List Char :=
  ("WEBVTT\n\n" ++ "X00:00:00.0" ++ "00:00:00.000 --> 00:00:00.000" ++
    "\n00 --> 00:00:00.000z\n<c>b</c>\nc").data

/-- Claim C6 (counterexample): two transcripts containing all three
noise classes (header, timestamp-range line, markup tags) whose
cleaned output still contains noise.  `vttDupHeader` has a duplicated
`WEBVTT\n\n` header; the anchored header regex removes only the first,
and the line `WEBVTT` survives into the output.  In `vttSplice` the
timestamp substitution splices the text before a mid-line match onto
the following line, recreating a full timestamp-range line that is
never rescanned and survives into the output. -/
theorem clean_transcript_noise_survives :
    (containsHeaderB vttDupHeader && hasTsLineB vttDupHeader &&
      hasTag vttDupHeader) = true ∧
    clean_transcript vttDupHeader = some "WEBVTT\nbye".data ∧
    hasWebvttLineB "WEBVTT\nbye".data = true ∧
    (containsHeaderB vttSplice && hasTsLineB vttSplice &&
      hasTag vttSplice) = true ∧
    clean_transcript vttSplice = some "X00:00:00.000 --> 00:00:00.000z\nb".data ∧
    hasTsLineB "X00:00:00.000 --> 00:00:00.000z\nb".data = true := by
  exact ⟨by decide, rfl, by decide, by decide, rfl, by decide⟩

/-- Claim C9: whenever the post-regex line list has at least two lines
and the de-duplication scan terminates without crashing, every kept
line is drawn from an index strictly below the last — the result is a
sublist of `(preLines t).dropLast`, so the final line is always
dropped. -/
theorem dedup_never_keeps_last_line (t : List Char)
    (h2 : 2 ≤ (preLines t).length) (ul : List (List Char))
    (h : dedupGo (preLines t) = some ul) :
    ul.Sublist (preLines t).dropLast :=
  dedupGo_sublist _ _ h

/-- Witness for `dedup_never_keeps_last_line` on the two-line
transcript `a` / `b`. -/
theorem dedup_never_keeps_last_line_witness :
    2 ≤ (preLines "a\nb".data).length ∧
    ["a".data].Sublist (preLines "a\nb".data).dropLast :=
  ⟨by decide, dedup_never_keeps_last_line "a\nb".data (by decide) _ (by decide)⟩

/-! ## Recursion equations of the scanners in source shape

The `...Go` scanners carry an explicit skip counter so that they are
structurally recursive (and hence computable by `rfl`); these lemmas
recover the recursion in the shape of the Python `re.sub` scan. -/

theorem removeTimestampsGo_skip : ∀ (skip : Nat) (l : List Char),
    removeTimestampsGo skip l = removeTimestampsGo 0 (l.drop skip)
  | 0, l => by simp
  | skip + 1, [] => by simp [removeTimestampsGo]
  | skip + 1, c :: rest => by
      simp only [removeTimestampsGo, List.drop_succ_cons]
      exact removeTimestampsGo_skip skip rest

theorem removeTagsGo_skip : ∀ (skip : Nat) (l : List Char),
    removeTagsGo skip l = removeTagsGo 0 (l.drop skip)
  | 0, l => by simp
  | skip + 1, [] => by simp [removeTagsGo]
  | skip + 1, c :: rest => by
      simp only [removeTagsGo, List.drop_succ_cons]
      exact removeTagsGo_skip skip rest

theorem removeAlignGo_skip : ∀ (skip : Nat) (l : List Char),
    removeAlignGo skip l = removeAlignGo 0 (l.drop skip)
  | 0, l => by simp
  | skip + 1, [] => by simp [removeAlignGo]
  | skip + 1, c :: rest => by
      simp only [removeAlignGo, List.drop_succ_cons]
      exact removeAlignGo_skip skip rest

theorem suffix_of_cons_of_lt {r : List Char} {c : Char} {rest : List Char}
    (h : r <:+ c :: rest) (hlen : r.length < (c :: rest).length) : r <:+ rest := by
  obtain ⟨p, hp⟩ := h
  cases p with
  | nil => rw [List.nil_append] at hp; subst hp; simp at hlen
  | cons x p2 => injection hp with h1 h2; exact ⟨p2, h2⟩

theorem drop_of_suffix {r l : List Char} (h : r <:+ l) :
    l.drop (l.length - r.length) = r := by
  obtain ⟨p, hp⟩ := h
  subst hp
  rw [List.length_append, Nat.add_sub_cancel]
  exact List.drop_left p r

theorem removeTimestamps_cons (c : Char) (rest : List Char) :
    removeTimestamps (c :: rest) =
      match matchTs (c :: rest) with
      | some r => removeTimestamps r
      | none => c :: removeTimestamps rest := by
  unfold removeTimestamps
  cases h : matchTs (c :: rest) with
  | none =>
      show (match matchTs (c :: rest) with
        | some r => removeTimestampsGo (rest.length - r.length) rest
        | none => c :: removeTimestampsGo 0 rest) = _
      rw [h]
  | some r =>
      show (match matchTs (c :: rest) with
        | some r => removeTimestampsGo (rest.length - r.length) rest
        | none => c :: removeTimestampsGo 0 rest) = _
      rw [h]
      dsimp only
      rw [removeTimestampsGo_skip]
      congr 1
      exact drop_of_suffix
        (suffix_of_cons_of_lt (matchTs_suffix h) (matchTs_length h))

theorem removeTags_cons (c : Char) (rest : List Char) :
    removeTags (c :: rest) =
      if c = '<' then
        match findGt rest with
        | some (b, a) => if b = [] then c :: removeTags rest else removeTags a
        | none => c :: removeTags rest
      else c :: removeTags rest := by
  unfold removeTags
  show (if c = '<' then
      match findGt rest with
      | some (b, a) =>
          if b = [] then c :: removeTagsGo 0 rest
          else removeTagsGo (b.length + 1) rest
      | none => c :: removeTagsGo 0 rest
      else c :: removeTagsGo 0 rest) = _
  by_cases hc : c = '<'
  · rw [if_pos hc, if_pos hc]
    cases h : findGt rest with
    | none => rfl
    | some p =>
        obtain ⟨b, a⟩ := p
        dsimp only
        by_cases hb : b = []
        · rw [if_pos hb, if_pos hb]
        · rw [if_neg hb, if_neg hb]
          rw [removeTagsGo_skip]
          congr 1
          obtain ⟨heq, -⟩ := findGt_some h
          subst heq
          rw [show b.length + 1 = (b ++ ['>']).length by simp,
            show b ++ '>' :: a = (b ++ ['>']) ++ a by simp]
          exact List.drop_left _ _
  · rw [if_neg hc, if_neg hc]

theorem removeAlign_cons (c : Char) (rest : List Char) :
    removeAlign (c :: rest) =
      if alignPat.isPrefixOf (c :: rest) then
        removeAlign ((c :: rest).drop alignPat.length)
      else c :: removeAlign rest := by
  unfold removeAlign
  show (if alignPat.isPrefixOf (c :: rest) then
      removeAlignGo (alignPat.length - 1) rest
      else c :: removeAlignGo 0 rest) = _
  by_cases h : alignPat.isPrefixOf (c :: rest)
  · rw [if_pos h, if_pos h, removeAlignGo_skip]
    congr 1
  · rw [if_neg h, if_neg h]

/-! ## Sublist facts: every cleaning pass only deletes characters -/

theorem stripHeader_sublist (t : List Char) : (stripHeader t).Sublist t := by
  unfold stripHeader
  split_ifs
  · exact List.drop_sublist _ _
  · exact List.Sublist.refl _

theorem removeTimestamps_sublist : ∀ (l : List Char), (removeTimestamps l).Sublist l
  | [] => by simp [removeTimestamps, removeTimestampsGo]
  | c :: rest => by
      rw [removeTimestamps_cons]
      cases h : matchTs (c :: rest) with
      | some r =>
          have hsuf := matchTs_suffix h
          exact (removeTimestamps_sublist r).trans hsuf.sublist
      | none => exact (removeTimestamps_sublist rest).cons₂ c
termination_by l => l.length
decreasing_by
  · simp
  · simpa using matchTs_length h

theorem removeTags_sublist : ∀ (l : List Char), (removeTags l).Sublist l
  | [] => by simp [removeTags, removeTagsGo]
  | c :: rest => by
      rw [removeTags_cons]
      by_cases hc : c = '<'
      · rw [if_pos hc]
        cases h : findGt rest with
        | none => exact (removeTags_sublist rest).cons₂ c
        | some p =>
            obtain ⟨b, a⟩ := p
            dsimp only
            by_cases hb : b = []
            · rw [if_pos hb]
              exact (removeTags_sublist rest).cons₂ c
            · rw [if_neg hb]
              obtain ⟨heq, -⟩ := findGt_some h
              have hsuf : a.Sublist rest := by
                rw [heq]
                exact ((List.sublist_cons_self '>' a).trans
                  (List.sublist_append_right b _))
              exact ((removeTags_sublist a).trans hsuf).cons c
      · rw [if_neg hc]
        exact (removeTags_sublist rest).cons₂ c
termination_by l => l.length
decreasing_by
  · simp
  · simp
  · obtain ⟨heq, -⟩ := findGt_some h
    subst heq
    simp
    omega
  · simp

theorem removeAlign_sublist : ∀ (l : List Char), (removeAlign l).Sublist l
  | [] => by simp [removeAlign, removeAlignGo]
  | c :: rest => by
      rw [removeAlign_cons]
      split_ifs
      · exact (removeAlign_sublist ((c :: rest).drop alignPat.length)).trans
          (List.drop_sublist _ _)
      · exact (removeAlign_sublist rest).cons₂ c
termination_by l => l.length
decreasing_by
  · simp [alignPat]
    omega
  · simp

theorem collapseNlGo_sublist (t r : Nat) (hrt : r ≤ t) :
    ∀ (k : Nat) (l : List Char),
      (collapseNlGo t r k l).Sublist (List.replicate k '\n' ++ l)
  | k, [] => by
      simp only [collapseNlGo, List.append_nil]
      split_ifs with h
      · exact (List.replicate_sublist_replicate '\n').mpr (hrt.trans h)
      · exact List.Sublist.refl _
  | k, c :: rest => by
      simp only [collapseNlGo]
      by_cases hc : c = '\n'
      · rw [if_pos hc]
        have ih := collapseNlGo_sublist t r hrt (k + 1) rest
        rw [List.replicate_succ'] at ih
        subst hc
        simpa [List.append_assoc] using ih
      · rw [if_neg hc]
        have ih := collapseNlGo_sublist t r hrt 0 rest
        simp only [List.replicate, List.nil_append] at ih
        have h1 : ((if t ≤ k then List.replicate r '\n' else List.replicate k '\n').Sublist
            (List.replicate k '\n')) := by
          split_ifs with h
          · exact (List.replicate_sublist_replicate '\n').mpr (hrt.trans h)
          · exact List.Sublist.refl _
        exact h1.append (ih.cons₂ c)

theorem collapseNl_sublist (t r : Nat) (hrt : r ≤ t) (l : List Char) :
    (collapseNl t r l).Sublist l := by
  simpa using collapseNlGo_sublist t r hrt 0 l

theorem stripEnd_sublist : ∀ (l : List Char), (stripEnd l).Sublist l
  | [] => by simp [stripEnd]
  | c :: rest => by
      show (if stripEnd rest = [] ∧ isPySpace c then [] else c :: stripEnd rest).Sublist
        (c :: rest)
      split_ifs
      · exact List.nil_sublist _
      · exact (stripEnd_sublist rest).cons₂ c

theorem pyStrip_sublist (l : List Char) : (pyStrip l).Sublist l :=
  (stripEnd_sublist _).trans (List.dropWhile_sublist _)

/-! ## split / join inverse and monotonicity -/

theorem splitNl_ne_nil : ∀ (l : List Char), splitNl l ≠ []
  | [] => by simp [splitNl]
  | c :: rest => by
      simp only [splitNl]
      split_ifs
      · simp
      · cases h : splitNl rest <;> simp

theorem auxJoin_eq_cons (L : List (List Char)) (hL : L ≠ []) :
    auxJoin L = '\n' :: joinNl L := by
  cases L with
  | nil => exact absurd rfl hL
  | cons x xs => simp [auxJoin, joinNl]

theorem joinNl_splitNl : ∀ (l : List Char), joinNl (splitNl l) = l
  | [] => rfl
  | c :: rest => by
      simp only [splitNl]
      by_cases hc : c = '\n'
      · rw [if_pos hc]
        have ih := joinNl_splitNl rest
        show [] ++ auxJoin (splitNl rest) = c :: rest
        rw [auxJoin_eq_cons _ (splitNl_ne_nil rest), ih, List.nil_append, hc]
      · rw [if_neg hc]
        cases h : splitNl rest with
        | nil => exact absurd h (splitNl_ne_nil rest)
        | cons x xs =>
            have ih := joinNl_splitNl rest
            rw [h] at ih
            show (c :: x) ++ auxJoin xs = c :: rest
            rw [List.cons_append]
            rw [show x ++ auxJoin xs = joinNl (x :: xs) from rfl, ih]

theorem joinNl_sublist_auxJoin (L : List (List Char)) : (joinNl L).Sublist (auxJoin L) := by
  cases L with
  | nil => exact List.Sublist.refl _
  | cons x xs =>
      rw [auxJoin_eq_cons _ (by simp)]
      exact List.sublist_cons_self _ _

theorem auxJoin_mono : ∀ {L1 L2 : List (List Char)},
    L1.Sublist L2 → (auxJoin L1).Sublist (auxJoin L2) := by
  intro L1 L2 h
  induction h with
  | slnil => exact List.Sublist.refl _
  | cons y h ih =>
      exact ih.trans ((List.sublist_append_right y _).trans
        (List.sublist_cons_self '\n' _))
  | cons₂ x h ih =>
      exact (ih.append_left x).cons₂ '\n'

theorem joinNl_mono {L1 L2 : List (List Char)} (h : L1.Sublist L2) :
    (joinNl L1).Sublist (joinNl L2) := by
  induction h with
  | slnil => exact List.Sublist.refl _
  | cons y h ih =>
      exact ih.trans ((joinNl_sublist_auxJoin _).trans
        (List.sublist_append_right y _))
  | cons₂ x h ih =>
      exact (auxJoin_mono h).append_left x

theorem auxJoin_append_single (xs : List (List Char)) (z : List Char) :
    auxJoin (xs ++ [z]) = auxJoin xs ++ '\n' :: z := by
  induction xs with
  | nil => simp [auxJoin]
  | cons x xs ih => simp [auxJoin, ih]

theorem joinNl_append_single (A : List (List Char)) (z : List Char) (hA : A ≠ []) :
    joinNl (A ++ [z]) = joinNl A ++ '\n' :: z := by
  cases A with
  | nil => exact absurd rfl hA
  | cons x xs =>
      show x ++ auxJoin (xs ++ [z]) = (x ++ auxJoin xs) ++ '\n' :: z
      rw [auxJoin_append_single, List.append_assoc]

/-! ## Cleaning strictly shrinks nonempty results -/

/-- The length of the text entering the de-duplication stage is at
most the length of the input transcript. -/
theorem preText_length_le (s : List Char) :
    (pyStrip (collapseNl 3 2 (removeAlign (removeTags
      (removeTimestamps (stripHeader s)))))).length ≤ s.length :=
  le_trans (pyStrip_sublist _).length_le
    (le_trans (collapseNl_sublist 3 2 (by norm_num) _).length_le
      (le_trans (removeAlign_sublist _).length_le
        (le_trans (removeTags_sublist _).length_le
          (le_trans (removeTimestamps_sublist _).length_le
            (stripHeader_sublist s).length_le))))

/-- When `clean_transcript` returns, its output is empty or strictly
shorter than its input: the de-duplication loop never keeps the final
line, so a pass over a nonempty result always deletes something. -/
theorem clean_transcript_shrinks (s out : List Char)
    (h : clean_transcript s = some out) : out = [] ∨ out.length < s.length := by
  unfold clean_transcript at h
  cases hd : dedupGo (preLines s) with
  | none => rw [hd] at h; simp at h
  | some ul =>
      rw [hd] at h
      simp only [Option.map_some', Option.some.injEq] at h
      subst h
      have hsub : ul.Sublist (preLines s).dropLast := dedupGo_sublist _ _ hd
      have hpre : preLines s =
          splitNl (pyStrip (collapseNl 3 2 (removeAlign (removeTags
            (removeTimestamps (stripHeader s)))))) := rfl
      set t6 := pyStrip (collapseNl 3 2 (removeAlign (removeTags
        (removeTimestamps (stripHeader s))))) with ht6
      rw [hpre] at hsub
      have hlen6 : t6.length ≤ s.length := preText_length_le s
      by_cases h2 : 2 ≤ (splitNl t6).length
      · right
        have h1 : (joinNl ul).length ≤ (joinNl (splitNl t6).dropLast).length :=
          (joinNl_mono hsub).length_le
        have hne : (splitNl t6).dropLast ≠ [] := by
          have hl := List.length_dropLast (splitNl t6)
          intro hcon
          rw [hcon] at hl
          simp at hl
          omega
        have hsplit_eq : (splitNl t6).dropLast ++
            [(splitNl t6).getLast (splitNl_ne_nil t6)] = splitNl t6 :=
          List.dropLast_concat_getLast _
        have hjoin : joinNl (splitNl t6) = joinNl (splitNl t6).dropLast ++
            '\n' :: (splitNl t6).getLast (splitNl_ne_nil t6) := by
          conv_lhs => rw [← hsplit_eq]
          exact joinNl_append_single _ _ hne
        have h3 : (joinNl (splitNl t6).dropLast).length < t6.length := by
          have hlen := congrArg List.length hjoin
          rw [joinNl_splitNl] at hlen
          simp only [List.length_append, List.length_cons] at hlen
          omega
        have h4 : (collapseNl 2 1 (joinNl ul)).length ≤ (joinNl ul).length :=
          (collapseNl_sublist 2 1 (by norm_num) _).length_le
        omega
      · left
        have hne := splitNl_ne_nil t6
        have hpos : 0 < (splitNl t6).length := List.length_pos.mpr hne
        have hlen1 : (splitNl t6).length = 1 := by omega
        have hnil : (splitNl t6).dropLast = [] := by
          have hl := List.length_dropLast (splitNl t6)
          rw [hlen1] at hl
          exact List.eq_nil_of_length_eq_zero (by omega)
        rw [hnil] at hsub
        have hul : ul = [] := List.sublist_nil.mp hsub
        subst hul
        simp [joinNl, collapseNl, collapseNlGo]

/-- Claim C5 (amended): `clean_transcript` is idempotent only in the
degenerate case — for a cleaned text `s`, re-cleaning returns `s`
itself exactly when `s` is empty; every nonempty cleaned text loses
its final line on re-cleaning. -/
theorem clean_transcript_idempotent_only_on_empty (t s : List Char)
    (h : clean_transcript t = some s) :
    (clean_transcript s = some s ↔ s = []) := by
  constructor
  · intro hs
    rcases clean_transcript_shrinks s s hs with h1 | h1
    · exact h1
    · omega
  · intro hs
    subst hs
    rfl

/-- Witness for `clean_transcript_idempotent_only_on_empty`: the
transcript `x` cleans to the empty string, which is a fixed point. -/
theorem clean_transcript_idempotent_only_on_empty_witness :
    clean_transcript ([] : List Char) = some [] ↔ ([] : List Char) = [] :=
  clean_transcript_idempotent_only_on_empty "x".data [] rfl

/-! ## Tag-freedom invariant

`good l` says every `'<'` in `l` is either immediately followed by
`'>'` or has no `'>'` anywhere after it — so `l` contains no match of
`<[^>]+>`.  `removeTags` establishes it, every later pass preserves
it. -/

def good : List Char → Bool
  | [] => true
  | c :: rest =>
      (if c = '<' then decide (rest.head? = some '>' ∨ '>' ∉ rest) else true) &&
        good rest

theorem good_cons {c : Char} {rest : List Char} (h : good (c :: rest) = true) :
    good rest = true := by
  simp only [good, Bool.and_eq_true] at h
  exact h.2

theorem good_cons_lt {rest : List Char} (h : good ('<' :: rest) = true) :
    rest.head? = some '>' ∨ '>' ∉ rest := by
  have h2 : ((if ('<' : Char) = '<' then
      decide (rest.head? = some '>' ∨ '>' ∉ rest) else true) && good rest) = true := h
  rw [if_pos rfl] at h2
  simp only [Bool.and_eq_true, decide_eq_true_eq] at h2
  exact h2.1

theorem good_cons_of {c : Char} {rest : List Char} (hc : c ≠ '<')
    (h : good rest = true) : good (c :: rest) = true := by
  simp only [good, if_neg hc, Bool.true_and]
  exact h

theorem good_cons_lt_of {rest : List Char} (h : good rest = true)
    (hh : rest.head? = some '>' ∨ '>' ∉ rest) : good ('<' :: rest) = true := by
  show ((if ('<' : Char) = '<' then
      decide (rest.head? = some '>' ∨ '>' ∉ rest) else true) && good rest) = true
  rw [if_pos rfl]
  simp only [Bool.and_eq_true, decide_eq_true_eq]
  exact ⟨hh, h⟩

theorem good_append_right : ∀ (p l : List Char), good (p ++ l) = true →
    good l = true
  | [], _, h => h
  | c :: p, l, h => good_append_right p l (good_cons h)

theorem good_append_left_of : ∀ {p : List Char}, '<' ∉ p →
    ∀ {l : List Char}, good l = true → good (p ++ l) = true := by
  intro p
  induction p with
  | nil => intro _ l h; exact h
  | cons c p ih =>
      intro hp l h
      have hc : c ≠ '<' := by
        intro hcon
        exact hp (by rw [hcon]; exact List.mem_cons_self _ _)
      exact good_cons_of hc (ih (fun hm => hp (List.mem_cons_of_mem c hm)) h)

theorem good_drop (n : Nat) (l : List Char) (hg : good l = true) :
    good (l.drop n) = true := by
  obtain ⟨p, hp⟩ := List.drop_suffix n l
  exact good_append_right p _ (by rw [hp]; exact hg)

theorem good_dropWhile (P : Char → Bool) : ∀ (l : List Char),
    good l = true → good (l.dropWhile P) = true
  | [], h => h
  | c :: rest, h => by
      rw [List.dropWhile_cons]
      split_ifs
      · exact good_dropWhile P rest (good_cons h)
      · exact h

theorem good_replicate_nl : ∀ (n : Nat), good (List.replicate n '\n') = true
  | 0 => rfl
  | n + 1 => by
      rw [List.replicate_succ]
      exact good_cons_of (by decide) (good_replicate_nl n)

/-! ### `removeTags` establishes the invariant -/

theorem good_removeTags : ∀ (l : List Char), good (removeTags l) = true
  | [] => rfl
  | c :: rest => by
      rw [removeTags_cons]
      by_cases hc : c = '<'
      · rw [if_pos hc]
        cases h : findGt rest with
        | none =>
            have hnot := findGt_none h
            subst hc
            exact good_cons_lt_of (good_removeTags rest)
              (Or.inr fun hm => hnot ((removeTags_sublist rest).subset hm))
        | some p =>
            obtain ⟨b, a⟩ := p
            dsimp only
            by_cases hb : b = []
            · rw [if_pos hb]
              obtain ⟨heq, -⟩ := findGt_some h
              rw [hb, List.nil_append] at heq
              subst hc
              have hr : removeTags rest = '>' :: removeTags a := by
                rw [heq, removeTags_cons, if_neg (by decide : ¬('>' = '<'))]
              exact good_cons_lt_of (good_removeTags rest)
                (Or.inl (by rw [hr]; rfl))
            · rw [if_neg hb]
              exact good_removeTags a
      · rw [if_neg hc]
        exact good_cons_of hc (good_removeTags rest)
termination_by l => l.length
decreasing_by
  · simp
  · simp
  · obtain ⟨heq, -⟩ := findGt_some h
    subst heq
    simp
    omega
  · simp

/-! ### The later passes preserve the invariant -/

theorem good_removeAlign : ∀ (l : List Char), good l = true →
    good (removeAlign l) = true
  | [] => fun h => h
  | c :: rest => fun hg => by
      rw [removeAlign_cons]
      by_cases h : alignPat.isPrefixOf (c :: rest)
      · rw [if_pos h]
        exact good_removeAlign _ (good_drop _ _ hg)
      · rw [if_neg h]
        by_cases hc : c = '<'
        · subst hc
          refine good_cons_lt_of (good_removeAlign rest (good_cons hg)) ?_
          rcases good_cons_lt hg with hh | hh
          · cases rest with
            | nil => simp at hh
            | cons r0 r2 =>
                simp only [List.head?_cons, Option.some.injEq] at hh
                subst hh
                left
                have hfalse : alignPat.isPrefixOf ('>' :: r2) = false := rfl
                rw [removeAlign_cons, if_neg (by rw [hfalse]; simp)]
                rfl
          · exact Or.inr fun hm => hh ((removeAlign_sublist rest).subset hm)
        · exact good_cons_of hc (good_removeAlign rest (good_cons hg))
termination_by l => l.length
decreasing_by
  · simp [alignPat]
    omega
  · simp
  · simp

theorem good_collapseNlGo (t r : Nat) (ht : 1 ≤ t) (hrt : r ≤ t) :
    ∀ (k : Nat) (l : List Char), good l = true →
      good (collapseNlGo t r k l) = true
  | k, [], hg => by
      simp only [collapseNlGo]
      split_ifs <;> exact good_replicate_nl _
  | k, c :: rest, hg => by
      simp only [collapseNlGo]
      by_cases hc : c = '\n'
      · rw [if_pos hc]
        exact good_collapseNlGo t r ht hrt (k + 1) rest (good_cons hg)
      · rw [if_neg hc]
        apply good_append_left_of
        · intro hm
          split_ifs at hm <;>
            exact absurd (List.eq_of_mem_replicate hm) (by decide)
        · by_cases hlt : c = '<'
          · subst hlt
            refine good_cons_lt_of
              (good_collapseNlGo t r ht hrt 0 rest (good_cons hg)) ?_
            rcases good_cons_lt hg with hh | hh
            · cases rest with
              | nil => simp at hh
              | cons r0 r2 =>
                  simp only [List.head?_cons, Option.some.injEq] at hh
                  subst hh
                  left
                  simp only [collapseNlGo]
                  rw [if_neg (by decide : ¬(('>' : Char) = '\n')),
                    if_neg (by omega : ¬(t ≤ 0))]
                  simp
            · refine Or.inr fun hm => hh ?_
              have hsubl : (collapseNlGo t r 0 rest).Sublist rest := by
                simpa using collapseNlGo_sublist t r hrt 0 rest
              exact hsubl.subset hm
          · exact good_cons_of hlt
              (good_collapseNlGo t r ht hrt 0 rest (good_cons hg))

theorem good_stripEnd : ∀ (l : List Char), good l = true →
    good (stripEnd l) = true
  | [] => fun h => h
  | c :: rest => fun hg => by
      show good (if stripEnd rest = [] ∧ isPySpace c then []
        else c :: stripEnd rest) = true
      split_ifs with h
      · rfl
      · by_cases hc : c = '<'
        · subst hc
          refine good_cons_lt_of (good_stripEnd rest (good_cons hg)) ?_
          rcases good_cons_lt hg with hh | hh
          · cases rest with
            | nil => simp at hh
            | cons r0 r2 =>
                simp only [List.head?_cons, Option.some.injEq] at hh
                subst hh
                left
                show (if stripEnd r2 = [] ∧ isPySpace '>' then []
                  else '>' :: stripEnd r2).head? = some '>'
                rw [if_neg (fun hcon => absurd hcon.2 (by decide))]
                rfl
          · exact Or.inr fun hm => hh ((stripEnd_sublist rest).subset hm)
        · exact good_cons_of hc (good_stripEnd rest (good_cons hg))

/-! ### The invariant passes through line deletion and re-joining -/

theorem auxJoin_head (L : List (List Char)) :
    (auxJoin L).head? = some '\n' ∨ auxJoin L = [] := by
  cases L with
  | nil => exact Or.inr rfl
  | cons x xs => exact Or.inl rfl

/-- Replacing the text `m` after an arbitrary prefix `x` by a text `m'`
whose `'>'` characters all come from `m`, and which (like `m`) starts
with a newline if nonempty, preserves the invariant. -/
theorem good_append_transfer (x m m' : List Char)
    (hmem : '>' ∈ m' → '>' ∈ m)
    (hm' : m'.head? = some '\n' ∨ m' = [])
    (hm : m.head? = some '\n' ∨ m = [])
    (hg' : good m' = true)
    (hg : good (x ++ m) = true) : good (x ++ m') = true := by
  induction x with
  | nil => exact hg'
  | cons c x ih =>
      have htail : good (x ++ m') = true := ih (good_cons hg)
      by_cases hc : c = '<'
      · subst hc
        refine good_cons_lt_of htail ?_
        rcases good_cons_lt hg with hh | hh
        · cases x with
          | nil =>
              exfalso
              have hh2 : m.head? = some '>' := hh
              rcases hm with h1 | h1
              · rw [h1] at hh2
                simp at hh2
              · rw [h1] at hh2
                simp at hh2
          | cons x0 x1 =>
              left
              have hh2 : x0 = '>' := by simpa using hh
              simp [hh2]
        · right
          intro hmem'
          rcases List.mem_append.mp hmem' with h1 | h1
          · exact hh (List.mem_append.mpr (Or.inl h1))
          · exact hh (List.mem_append.mpr (Or.inr (hmem h1)))
      · exact good_cons_of hc htail

theorem good_auxJoin_sublist : ∀ (L1 L2 : List (List Char)), L1.Sublist L2 →
    good (auxJoin L2) = true → good (auxJoin L1) = true
  | _, _, .slnil, hg => hg
  | l1, y :: l2, .cons _ h, hg =>
      good_auxJoin_sublist l1 l2 h (good_append_right y _ (good_cons hg))
  | _ :: l1, y :: l2, .cons₂ _ h, hg => by
      have hg2 : good (y ++ auxJoin l2) = true := good_cons hg
      have hgl1 : good (auxJoin l1) = true :=
        good_auxJoin_sublist l1 l2 h (good_append_right y _ hg2)
      have hstep : good (y ++ auxJoin l1) = true :=
        good_append_transfer y (auxJoin l2) (auxJoin l1)
          (fun hm => (auxJoin_mono h).subset hm)
          (auxJoin_head l1) (auxJoin_head l2) hgl1 hg2
      exact good_cons_of (by decide) hstep

theorem good_auxJoin_iff (L : List (List Char)) :
    good (auxJoin L) = true ↔ good (joinNl L) = true := by
  cases L with
  | nil => exact Iff.rfl
  | cons x xs =>
      constructor
      · exact fun h => good_cons h
      · exact fun h => good_cons_of (by decide) h

theorem hasTag_eq_false_of_good : ∀ (l : List Char), good l = true →
    hasTag l = false
  | [] => fun _ => rfl
  | c :: rest => fun hg => by
      show ((decide (c = '<') && decide (rest.head? ≠ some '>') &&
        decide ('>' ∈ rest)) || hasTag rest) = false
      rw [Bool.or_eq_false_iff]
      constructor
      · by_cases hc : c = '<'
        · subst hc
          rcases good_cons_lt hg with hh | hh
          · simp [hh]
          · simp [hh]
        · simp [hc]
      · exact hasTag_eq_false_of_good rest (good_cons hg)

/-- Claim C6 (amended): for every transcript, the cleaned output
contains no inline bracketed markup tag — no occurrence of the pattern
`<[^>]+>` survives cleaning.  (The other two noise classes, the WEBVTT
header and timestamp-range lines, are removed in ordinary positions
but can survive adversarial inputs, per the counterexample.) -/
theorem clean_transcript_no_tags (t out : List Char)
    (h : clean_transcript t = some out) : hasTag out = false := by
  unfold clean_transcript at h
  cases hd : dedupGo (preLines t) with
  | none => rw [hd] at h; simp at h
  | some ul =>
      rw [hd] at h
      simp only [Option.map_some', Option.some.injEq] at h
      subst h
      have g3 : good (removeTags (removeTimestamps (stripHeader t))) = true :=
        good_removeTags _
      have g4 : good (removeAlign (removeTags (removeTimestamps
          (stripHeader t)))) = true := good_removeAlign _ g3
      have g5 : good (collapseNl 3 2 (removeAlign (removeTags
          (removeTimestamps (stripHeader t))))) = true :=
        good_collapseNlGo 3 2 (by norm_num) (by norm_num) 0 _ g4
      have g6 : good (pyStrip (collapseNl 3 2 (removeAlign (removeTags
          (removeTimestamps (stripHeader t)))))) = true :=
        good_stripEnd _ (good_dropWhile _ _ g5)
      have hpre : preLines t = splitNl (pyStrip (collapseNl 3 2 (removeAlign
          (removeTags (removeTimestamps (stripHeader t)))))) := rfl
      set t6 := pyStrip (collapseNl 3 2 (removeAlign (removeTags
        (removeTimestamps (stripHeader t))))) with ht6
      have gJ : good (joinNl (splitNl t6)) = true := by
        rw [joinNl_splitNl]
        exact g6
      have hsub : ul.Sublist (splitNl t6) := by
        rw [← hpre]
        exact (dedupGo_sublist _ _ hd).trans (List.dropLast_sublist _)
      have gUl : good (joinNl ul) = true :=
        (good_auxJoin_iff ul).mp (good_auxJoin_sublist ul (splitNl t6) hsub
          ((good_auxJoin_iff _).mpr gJ))
      have gOut : good (collapseNl 2 1 (joinNl ul)) = true :=
        good_collapseNlGo 2 1 (by norm_num) (by norm_num) 0 _ gUl
      exact hasTag_eq_false_of_good _ gOut

/-- Witness for `clean_transcript_no_tags` on a concrete tagged
transcript. -/
theorem clean_transcript_no_tags_witness :
    clean_transcript "hi <b>x</b>\nworld\nzz".data = some "hi x\nworld".data ∧
    hasTag "hi x\nworld".data = false :=
  ⟨rfl, clean_transcript_no_tags "hi <b>x</b>\nworld\nzz".data _ rfl⟩

end PodReader
